import Mathlib

/-!
Verification of `imaging_transcriptomics` input handling
(`imaging_transcriptomics/inputs.py`) and of the permutation p-value
finalization, over a shallow embedding in Lean 4.

Numeric values carried by numpy arrays are embedded as rationals (`ℚ`);
volumetric arrays are embedded in flattened (row-major) form as `List ℚ`.
Python exceptions are embedded as an explicit error type returned through
`Except`.
-/

set_option autoImplicit false

namespace ImagingTranscriptomics

/-- The kinds of failure the embedded functions can signal.
`indexError` stands for Python's built-in `IndexError` raised by an
out-of-bounds numpy scalar index; the remaining constructors stand for the
error classes named by the specification (`errors.py`). -/
inductive PyError where
  | indexError
  | invalidRangeError
  | insufficientVarianceError
  | shapeMismatchError
  deriving DecidableEq, Repr

/-! ### `np.cumsum` -/

/-- Running cumulative sums with accumulator `acc` (helper for `cumsum`). -/
def cumsumAux (acc : ℚ) : List ℚ → List ℚ
  | [] => []
  | x :: xs => (acc + x) :: cumsumAux (acc + x) xs

/-- Embedding of `np.cumsum` on a 1-D array: element `i` of the result is
the sum of elements `0..i` of the input. -/
def cumsum (xs : List ℚ) : List ℚ := cumsumAux 0 xs

/-! ### `get_components` (inputs.py lines 51-64) -/

/-- The scan loop of `get_components`:
`dim = 1; while cumulative_var[dim-1] < target_variance: dim += 1; return dim`.
The list argument is the suffix of `cumulative_var` starting at index
`dim - 1`; indexing past the end of the array raises `IndexError`. -/
def scanLoop (target : ℚ) : List ℚ → ℕ → Except PyError ℕ
  | [], _ => .error .indexError
  | c :: cs, dim => if c < target then scanLoop target cs (dim + 1) else .ok dim

/-- Body of `get_components` (without the `@check_var_in_range` decorator):
computes `np.cumsum(explained_var)` and scans it for the first entry
reaching `target_variance`, starting at `dim = 1`. -/
def get_components_core (target_variance : ℚ) (explained_var : List ℚ) :
    Except PyError ℕ :=
  scanLoop target_variance (cumsum explained_var) 1

/-- Modelled from the spec: the `check_var_in_range` decorator lives in
`imaging_transcriptomics/errors.py`, which is not part of the sources at
hand.  Per the spec, it fails with an `InvalidRangeError` if
`target_variance` is outside `(0, 1]`, validated before the scan. -/
def check_var_in_range (f : ℚ → List ℚ → Except PyError ℕ)
    (target_variance : ℚ) (explained_var : List ℚ) : Except PyError ℕ :=
  if 0 < target_variance ∧ target_variance ≤ 1 then f target_variance explained_var
  else .error .invalidRangeError

/-- `get_components` as exported: the scan body wrapped in the
range-validation decorator. -/
def get_components (target_variance : ℚ) (explained_var : List ℚ) :
    Except PyError ℕ :=
  check_var_in_range get_components_core target_variance explained_var

/-! ### `extract_average` (inputs.py lines 30-47) -/

/-- Embedding of `np.mean` on a 1-D array: sum divided by length (in `ℚ`,
the mean of the empty list is `0/0 = 0`; numpy would produce `nan` there,
so theorems about region means assume the region is inhabited). -/
def npMean (xs : List ℚ) : ℚ := xs.sum / xs.length

/-- Embedding of `imaging_matrix[np.where(atlas_data == label)]` on the
flattened arrays: the scan values at exactly the voxel positions whose
atlas value equals `label`, in row-major order. -/
def selectWhereEq (values labels : List ℚ) (label : ℚ) : List ℚ :=
  (values.zip labels).filterMap fun p => if p.2 = label then some p.1 else none

/-- `n_regions = 41` as set in `extract_average`. -/
def n_regions : ℕ := 41

/-- Body of `extract_average` (without the `@check_correct_shape`
decorator): `for i in range(1, n_regions + 1): data[i-1] = np.mean(imaging_matrix[np.where(atlas_data == i)])`.
The atlas volume (a fixed reference file in the repository's `data`
folder) is passed as the flattened `atlas_data` argument. -/
def extract_average_core (imaging_matrix atlas_data : List ℚ) : List ℚ :=
  (List.range' 1 n_regions).map fun (i : ℕ) =>
    npMean (selectWhereEq imaging_matrix atlas_data (i : ℚ))

/-- Modelled from the spec: the `check_correct_shape` decorator lives in
`imaging_transcriptomics/errors.py`, which is not part of the sources at
hand.  Per the spec, the region-average extractor requires
`volumetric_scan.shape == atlas.shape` and fails with `ShapeMismatchError`
otherwise, performing no partial computation. -/
def check_correct_shape (f : List ℚ → List ℚ → List ℚ)
    (imaging_matrix atlas_data : List ℚ) : Except PyError (List ℚ) :=
  if imaging_matrix.length = atlas_data.length then .ok (f imaging_matrix atlas_data)
  else .error .shapeMismatchError

/-- `extract_average` as exported: the region-mean loop wrapped in the
shape-validation decorator. -/
def extract_average (imaging_matrix atlas_data : List ℚ) :
    Except PyError (List ℚ) :=
  check_correct_shape extract_average_core imaging_matrix atlas_data

/-! ### `load_gene_expression` (inputs.py lines 68-78) -/

/-- Exact rational square root: the true square root whenever the argument
is the square of a rational, junk otherwise.  This embeds the
floating-point square root inside `scipy.stats.zscore`; theorems that
depend on the standard deviation carry the hypothesis that the square
root is exactly representable. -/
def ratSqrt (q : ℚ) : ℚ := (Nat.sqrt q.num.toNat : ℚ) / (Nat.sqrt q.den : ℚ)

/-- Sum of squared deviations from the mean over the denominator
`n - ddof`: the (sample, for `ddof = 1`) variance used by
`scipy.stats.zscore`. -/
def colVar (ddof : ℕ) (xs : List ℚ) : ℚ :=
  ((xs.map fun x => (x - npMean xs) ^ 2).sum) / ((xs.length : ℚ) - (ddof : ℚ))

/-- Standard deviation with `ddof` delta degrees of freedom. -/
def sampleStd (ddof : ℕ) (xs : List ℚ) : ℚ := ratSqrt (colVar ddof xs)

/-- Column `j` of a row-major matrix (rows shorter than `j + 1`
contribute nothing; admissible numpy matrices are rectangular). -/
def getCol (m : List (List ℚ)) (j : ℕ) : List ℚ :=
  m.filterMap fun row => row[j]?

/-- One row of the z-scored matrix: entry `j` is `(x - mus[j]) / sigmas[j]`
(the broadcast `(x - x.mean(axis=0)) / x.std(axis=0)`). -/
def zscoreRow (mus sigmas row : List ℚ) : List ℚ :=
  (row.zip (mus.zip sigmas)).map fun p => (p.1 - p.2.1) / p.2.2

/-- Embedding of `scipy.stats.zscore(m, ddof=ddof)` along the default
`axis=0`: each entry is centred by its column's mean and divided by its
column's standard deviation. -/
def zscore (ddof : ℕ) (m : List (List ℚ)) : List (List ℚ) :=
  let cols := (List.range (m.headD []).length).map (getCol m)
  m.map (zscoreRow (cols.map npMean) (cols.map (sampleStd ddof)))

/-- Embedding of `load_gene_expression`: the gene-expression table (the
repository's fixed `gene_expression_data.csv`, passed here as the list of
its rows) is sliced by `iloc[0:41, 2:]` and z-scored with `ddof=1`. -/
def load_gene_expression (expression_data : List (List ℚ)) : List (List ℚ) :=
  zscore 1 ((expression_data.take 41).map fun row => row.drop 2)

/-! ### Permutation p-values -/

/-- Modelled from the spec: the permutation engine
(`imaging_transcriptomics/permutations.py`) is not part of the sources at
hand.  Per the spec's finalization step, the p-value for a component with
true explained variance `true_var` against the `n_perm` null explained
variances `null_vars` is `(count_null_ge_true + 1) / (n_perm + 1)`,
counting the null values that are `>=` the true one. -/
def perm_pvalue (null_vars : List ℚ) (true_var : ℚ) : ℚ :=
  (((null_vars.countP fun x => true_var ≤ x) : ℚ) + 1) /
    ((null_vars.length : ℚ) + 1)

/-! ### Lemmas about `cumsum` -/

theorem cumsumAux_length (acc : ℚ) (xs : List ℚ) :
    (cumsumAux acc xs).length = xs.length := by
  induction xs generalizing acc with
  | nil => rfl
  | cons x xs ih => simp [cumsumAux, ih]

theorem cumsum_length (xs : List ℚ) : (cumsum xs).length = xs.length :=
  cumsumAux_length 0 xs

theorem cumsumAux_getD (acc : ℚ) (xs : List ℚ) (i : ℕ) (hi : i < xs.length) :
    (cumsumAux acc xs).getD i 0 = acc + (xs.take (i + 1)).sum := by
  induction xs generalizing acc i with
  | nil => exact absurd hi (by simp)
  | cons x xs ih =>
    cases i with
    | zero => simp [cumsumAux]
    | succ i =>
      have hi' : i < xs.length := by simpa using hi
      simp only [cumsumAux, List.getD_cons_succ, List.take_succ_cons,
        List.sum_cons, ih (acc + x) i hi']
      ring

theorem cumsum_getD (xs : List ℚ) (i : ℕ) (hi : i < xs.length) :
    (cumsum xs).getD i 0 = (xs.take (i + 1)).sum := by
  have h := cumsumAux_getD 0 xs i hi
  simpa [cumsum] using h

/-! ### Lemmas about the scan loop -/

theorem scanLoop_ok_of_exists (target : ℚ) (l : List ℚ) (d : ℕ)
    (h : ∃ c ∈ l, target ≤ c) :
    ∃ j, scanLoop target l d = .ok (d + j) ∧ j < l.length ∧
      target ≤ l.getD j 0 ∧ ∀ i < j, l.getD i 0 < target := by
  induction l generalizing d with
  | nil => simp at h
  | cons c cs ih =>
    by_cases hc : c < target
    · have hcs : ∃ c ∈ cs, target ≤ c := by
        rcases h with ⟨x, hx, hxt⟩
        rcases List.mem_cons.mp hx with rfl | hx'
        · exact absurd hc (not_lt.mpr hxt)
        · exact ⟨x, hx', hxt⟩
      rcases ih (d + 1) hcs with ⟨j, hok, hj, hge, hlt⟩
      refine ⟨j + 1, ?_, by simpa using Nat.succ_lt_succ hj, by simpa using hge, ?_⟩
      · simp only [scanLoop, if_pos hc]
        rw [hok]
        congr 1
        omega
      · intro i hi
        cases i with
        | zero => simpa using hc
        | succ i => exact by simpa using hlt i (by omega)
    · refine ⟨0, ?_, by simp, by simpa using not_lt.mp hc, by simp⟩
      simp [scanLoop, if_neg hc]

theorem scanLoop_error_of_all (target : ℚ) (l : List ℚ) (d : ℕ)
    (h : ∀ c ∈ l, c < target) :
    scanLoop target l d = .error .indexError := by
  induction l generalizing d with
  | nil => rfl
  | cons c cs ih =>
    have hc : c < target := h c (by simp)
    simp only [scanLoop, if_pos hc]
    exact ih (d + 1) fun x hx => h x (by simp [hx])

theorem scanLoop_ok_elim (target : ℚ) (l : List ℚ) (d r : ℕ)
    (h : scanLoop target l d = .ok r) :
    ∃ j, r = d + j ∧ j < l.length ∧ target ≤ l.getD j 0 ∧
      ∀ i < j, l.getD i 0 < target := by
  induction l generalizing d with
  | nil => simp [scanLoop] at h
  | cons c cs ih =>
    by_cases hc : c < target
    · simp only [scanLoop, if_pos hc] at h
      rcases ih (d + 1) h with ⟨j, hr, hj, hge, hlt⟩
      refine ⟨j + 1, by omega, by simpa using Nat.succ_lt_succ hj,
        by simpa using hge, ?_⟩
      intro i hi
      cases i with
      | zero => simpa using hc
      | succ i => exact by simpa using hlt i (by omega)
    · simp only [scanLoop, if_neg hc] at h
      obtain rfl : d = r := by injection h
      exact ⟨0, by omega, by simp, by simpa using not_lt.mp hc, by simp⟩

theorem exists_cumsum_ge (t : ℚ) (ev : List ℚ) (hne : ev ≠ [])
    (hsum : t ≤ ev.sum) : ∃ c ∈ cumsum ev, t ≤ c := by
  have hpos : 0 < ev.length := List.length_pos.mpr hne
  have hi : ev.length - 1 < ev.length := by omega
  have h1 : (cumsum ev).getD (ev.length - 1) 0 = (ev.take (ev.length - 1 + 1)).sum :=
    cumsum_getD ev _ hi
  have h2 : ev.length - 1 + 1 = ev.length := by omega
  rw [h2, List.take_length] at h1
  have hmem : (cumsum ev).getD (ev.length - 1) 0 ∈ cumsum ev := by
    rw [List.getD_eq_getElem _ 0 (by rw [cumsum_length]; exact hi)]
    exact List.getElem_mem _
  exact ⟨_, hmem, h1 ▸ hsum⟩

/-- C1: for every `target_variance` in `(0,1]` and every explained-variance
sequence whose total sum reaches the target, `get_components` returns the
minimal 1-based index `d` at which the cumulative sum reaches or exceeds
the target: the result is at least `1`, the sum of the first `d` entries is
`≥ target_variance`, and the sum of any shorter nonempty prefix is
strictly below it. -/
theorem get_components_minimal_first_crossing (t : ℚ) (ev : List ℚ)
    (h0 : 0 < t) (h1 : t ≤ 1) (hsum : t ≤ ev.sum) :
    ∃ d, get_components t ev = .ok d ∧ 1 ≤ d ∧ d ≤ ev.length ∧
      t ≤ (ev.take d).sum ∧ ∀ e, 1 ≤ e → e < d → (ev.take e).sum < t := by
  have hne : ev ≠ [] := by
    intro h
    subst h
    simp only [List.sum_nil] at hsum
    linarith
  rcases scanLoop_ok_of_exists t (cumsum ev) 1 (exists_cumsum_ge t ev hne hsum) with
    ⟨j, hok, hj, hge, hlt⟩
  have hjlen : j < ev.length := by rwa [cumsum_length] at hj
  refine ⟨1 + j, ?_, by omega, by omega, ?_, ?_⟩
  · unfold get_components check_var_in_range
    rw [if_pos ⟨h0, h1⟩]
    exact hok
  · rw [cumsum_getD ev j hjlen] at hge
    have hj1 : 1 + j = j + 1 := by omega
    rw [hj1]
    exact hge
  · intro e he1 he2
    obtain ⟨i, rfl⟩ : ∃ i, e = i + 1 := ⟨e - 1, by omega⟩
    have hilen : i < ev.length := by omega
    rw [← cumsum_getD ev i hilen]
    exact hlt i (by omega)

theorem get_components_minimal_first_crossing_witness :
    ∃ d, get_components (3/4) [(1/2 : ℚ), 1/2] = .ok d ∧ 1 ≤ d ∧
      d ≤ ([(1/2 : ℚ), 1/2] : List ℚ).length ∧
      (3/4 : ℚ) ≤ (([(1/2 : ℚ), 1/2] : List ℚ).take d).sum ∧
      ∀ e, 1 ≤ e → e < d → (([(1/2 : ℚ), 1/2] : List ℚ).take e).sum < 3/4 :=
  get_components_minimal_first_crossing (3/4) [(1/2 : ℚ), 1/2]
    (by norm_num) (by norm_num) (by norm_num)

/-- C2 counterexample: on `target_variance = 1` and the explained-variance
sequence `[1/4]` (whose cumulative sum never reaches the target),
`get_components` does not fail with `InsufficientVarianceError`: the scan
loop runs past the end of the cumulative-sum array and raises the
out-of-bounds `IndexError` instead. -/
theorem get_components_shortfall_counterexample :
    get_components 1 [(1/4 : ℚ)] = .error .indexError ∧
      get_components 1 [(1/4 : ℚ)] ≠ .error .insufficientVarianceError := by
  have he : get_components 1 [(1/4 : ℚ)] = .error .indexError := by
    norm_num [get_components, check_var_in_range, get_components_core,
      cumsum, cumsumAux, scanLoop]
  refine ⟨he, ?_⟩
  rw [he]
  simp

/-- C2 (amended): for every `target_variance` in `(0,1]` and every
explained-variance sequence whose cumulative sum never reaches the target,
`get_components` fails — but by reading out of bounds of the
cumulative-sum array (`IndexError`), not with `InsufficientVarianceError`. -/
theorem get_components_shortfall_index_error (t : ℚ) (ev : List ℚ)
    (h0 : 0 < t) (h1 : t ≤ 1) (hall : ∀ k : ℕ, (ev.take k).sum < t) :
    get_components t ev = .error .indexError := by
  unfold get_components check_var_in_range
  rw [if_pos ⟨h0, h1⟩]
  unfold get_components_core
  apply scanLoop_error_of_all
  intro c hc
  rcases List.mem_iff_getElem.mp hc with ⟨i, hi, hci⟩
  have hi' : i < ev.length := by rwa [cumsum_length] at hi
  have h := cumsum_getD ev i hi'
  rw [List.getD_eq_getElem _ 0 hi, hci] at h
  rw [h]
  exact hall (i + 1)

theorem get_components_shortfall_index_error_witness :
    get_components 1 [(1/8 : ℚ)] = .error .indexError :=
  get_components_shortfall_index_error 1 [(1/8 : ℚ)] (by norm_num) (by norm_num)
    (fun k => by
      cases k with
      | zero => norm_num
      | succ k => norm_num [List.take_succ_cons])

/-- C3: for a fixed explained-variance sequence and targets `t1 ≤ t2` on
which `get_components` succeeds, the component count returned for `t2` is
at least the count returned for `t1`. -/
theorem get_components_monotone (t1 t2 : ℚ) (ev : List ℚ) (d1 d2 : ℕ)
    (hle : t1 ≤ t2)
    (h1 : get_components t1 ev = .ok d1)
    (h2 : get_components t2 ev = .ok d2) : d1 ≤ d2 := by
  unfold get_components check_var_in_range at h1 h2
  by_cases hr1 : 0 < t1 ∧ t1 ≤ 1
  · rw [if_pos hr1] at h1
    by_cases hr2 : 0 < t2 ∧ t2 ≤ 1
    · rw [if_pos hr2] at h2
      unfold get_components_core at h1 h2
      rcases scanLoop_ok_elim t1 (cumsum ev) 1 d1 h1 with ⟨j1, rfl, _, _, hlt1⟩
      rcases scanLoop_ok_elim t2 (cumsum ev) 1 d2 h2 with ⟨j2, rfl, _, hge2, _⟩
      by_contra hcon
      have hj : j2 < j1 := by omega
      have := hlt1 j2 hj
      linarith
    · rw [if_neg hr2] at h2
      cases h2
  · rw [if_neg hr1] at h1
    cases h1

theorem get_components_monotone_witness :
    get_components (1/2) [(1/2 : ℚ), 1/2] = .ok 1 ∧
      get_components 1 [(1/2 : ℚ), 1/2] = .ok 2 ∧ (1 : ℕ) ≤ 2 := by
  have ha : get_components (1/2) [(1/2 : ℚ), 1/2] = .ok 1 := by
    norm_num [get_components, check_var_in_range, get_components_core,
      cumsum, cumsumAux, scanLoop]
  have hb : get_components 1 [(1/2 : ℚ), 1/2] = .ok 2 := by
    norm_num [get_components, check_var_in_range, get_components_core,
      cumsum, cumsumAux, scanLoop]
  exact ⟨ha, hb, get_components_monotone (1/2) 1 [(1/2 : ℚ), 1/2] 1 2 (by norm_num) ha hb⟩

/-- C6: for every `target_variance` outside `(0,1]`, `get_components`
fails with `InvalidRangeError`, whatever the explained-variance sequence:
the validation precedes (and is independent of) any scan of the
sequence. -/
theorem get_components_invalid_range (t : ℚ) (ev : List ℚ)
    (h : ¬(0 < t ∧ t ≤ 1)) :
    get_components t ev = .error .invalidRangeError := by
  unfold get_components check_var_in_range
  rw [if_neg h]

theorem get_components_invalid_range_witness :
    get_components 2 [(5 : ℚ)] = .error .invalidRangeError :=
  get_components_invalid_range 2 [(5 : ℚ)] (by norm_num)

/-- C10: for every target and every non-empty explained-variance sequence
whose total sum is at least the target, the scan loop of `get_components`
terminates with a normal return, and the returned count lies between `1`
and the length of the sequence. -/
theorem get_components_core_terminates (t : ℚ) (ev : List ℚ)
    (hne : ev ≠ []) (hsum : t ≤ ev.sum) :
    ∃ d, get_components_core t ev = .ok d ∧ 1 ≤ d ∧ d ≤ ev.length := by
  rcases scanLoop_ok_of_exists t (cumsum ev) 1 (exists_cumsum_ge t ev hne hsum) with
    ⟨j, hok, hj, _, _⟩
  rw [cumsum_length] at hj
  exact ⟨1 + j, hok, by omega, by omega⟩

theorem get_components_core_terminates_witness :
    ∃ d, get_components_core (9/10) [(1/3 : ℚ), 2/3] = .ok d ∧ 1 ≤ d ∧
      d ≤ ([(1/3 : ℚ), 2/3] : List ℚ).length :=
  get_components_core_terminates (9/10) [(1/3 : ℚ), 2/3] (by simp) (by norm_num)

/-! ### Claims about `extract_average` -/

/-- The voxel positions (in the flattened volume) whose atlas value equals
`label`. -/
def regionVoxels (atlas_data : List ℚ) (label : ℚ) : List ℕ :=
  (List.range atlas_data.length).filter fun j => atlas_data.getD j 0 = label

theorem selectWhereEq_eq_map_regionVoxels (values labels : List ℚ) (label : ℚ)
    (h : values.length = labels.length) :
    selectWhereEq values labels label =
      (regionVoxels labels label).map fun j => values.getD j 0 := by
  induction labels generalizing values with
  | nil =>
    obtain rfl : values = [] := List.length_eq_zero.mp h
    rfl
  | cons l ls ih =>
    cases values with
    | nil => simp at h
    | cons v vs =>
      have h' : vs.length = ls.length := by simpa using h
      have hp : ((fun j => decide ((l :: ls).getD j 0 = label)) ∘ Nat.succ)
          = fun j => decide (ls.getD j 0 = label) := by
        funext j
        simp [List.getD_cons_succ]
      have hg : ((fun j => (v :: vs).getD j 0) ∘ Nat.succ)
          = fun j => vs.getD j 0 := by
        funext j
        simp
      have ihv := ih vs h'
      simp only [selectWhereEq, regionVoxels] at ihv
      simp only [selectWhereEq, List.zip_cons_cons, List.filterMap_cons,
        regionVoxels, List.length_cons, List.range_succ_eq_map, List.filter_cons,
        List.getD_cons_zero, List.filter_map, hp, List.map_map, hg]
      by_cases hl : l = label
      · simp [hl, ihv]
      · simp [hl, ihv]

/-- C4: for every scan whose (flattened) shape matches the atlas,
`extract_average` returns a vector of `n_regions = 41` entries in which
element `i` is the mean scan intensity over exactly the voxel positions
whose atlas label equals `i + 1` (regions are assumed inhabited, since the
mean of an empty voxel set is not a number). -/
theorem extract_average_region_means (scan atlas : List ℚ)
    (hshape : scan.length = atlas.length)
    (_hne : ∀ i : ℕ, i < n_regions → regionVoxels atlas ((i + 1 : ℕ) : ℚ) ≠ []) :
    ∃ v, extract_average scan atlas = .ok v ∧ v.length = n_regions ∧
      ∀ i : ℕ, i < n_regions →
        v.getD i 0 =
          ((regionVoxels atlas ((i + 1 : ℕ) : ℚ)).map fun j => scan.getD j 0).sum /
            ((regionVoxels atlas ((i + 1 : ℕ) : ℚ)).map fun j => scan.getD j 0).length := by
  refine ⟨extract_average_core scan atlas, ?_, ?_, ?_⟩
  · unfold extract_average check_correct_shape
    rw [if_pos hshape]
  · simp [extract_average_core]
  · intro i hi
    have hi' : i < (List.range' 1 n_regions).length := by simpa using hi
    have hv : (extract_average_core scan atlas).getD i 0
        = npMean (selectWhereEq scan atlas ((1 + 1 * i : ℕ) : ℚ)) := by
      unfold extract_average_core
      rw [List.getD_eq_getElem _ 0 (by simpa using hi)]
      rw [List.getElem_map, List.getElem_range']
    have hcast : ((1 + 1 * i : ℕ) : ℚ) = ((i + 1 : ℕ) : ℚ) := by
      push_cast
      ring
    rw [hv, hcast, npMean, selectWhereEq_eq_map_regionVoxels scan atlas _ hshape]

/-- A one-voxel-per-region atlas used to instantiate the `extract_average`
theorems on concrete data. -/
def atlasW : List ℚ := (List.range' 1 41).map fun j => (j : ℚ)

theorem extract_average_region_means_witness :
    ∃ v, extract_average atlasW atlasW = .ok v ∧ v.length = n_regions ∧
      ∀ i : ℕ, i < n_regions →
        v.getD i 0 =
          ((regionVoxels atlasW ((i + 1 : ℕ) : ℚ)).map fun j => atlasW.getD j 0).sum /
            ((regionVoxels atlasW ((i + 1 : ℕ) : ℚ)).map fun j => atlasW.getD j 0).length :=
  extract_average_region_means atlasW atlasW rfl (by decide)

/-- C5: for every scan whose (flattened) shape differs from the atlas,
`extract_average` fails with `ShapeMismatchError`: the validating decorator
rejects the input before any region mean is computed. -/
theorem extract_average_shape_mismatch (scan atlas : List ℚ)
    (h : scan.length ≠ atlas.length) :
    extract_average scan atlas = .error .shapeMismatchError := by
  unfold extract_average check_correct_shape
  rw [if_neg h]

theorem extract_average_shape_mismatch_witness :
    extract_average [(1 : ℚ)] [] = .error .shapeMismatchError :=
  extract_average_shape_mismatch [(1 : ℚ)] [] (by simp)

/-! ### Claims about the permutation p-value and the sample count -/

/-- C7: every p-value produced by the permutation finalization equals
`(count_null_ge_true + 1) / (n_perm + 1)` and therefore lies in
`[1/(n_perm+1), 1]`; in particular it is never zero. -/
theorem perm_pvalue_bounds (null_vars : List ℚ) (true_var : ℚ)
    (h : 1 ≤ null_vars.length) :
    perm_pvalue null_vars true_var =
        (((null_vars.countP fun x => true_var ≤ x) : ℚ) + 1) /
          ((null_vars.length : ℚ) + 1) ∧
      1 / ((null_vars.length : ℚ) + 1) ≤ perm_pvalue null_vars true_var ∧
      perm_pvalue null_vars true_var ≤ 1 ∧
      perm_pvalue null_vars true_var ≠ 0 := by
  have hc : (null_vars.countP fun x => true_var ≤ x) ≤ null_vars.length :=
    List.countP_le_length _
  have hd : (0 : ℚ) < (null_vars.length : ℚ) + 1 := by positivity
  refine ⟨rfl, ?_, ?_, ?_⟩
  · rw [perm_pvalue, div_le_div_iff_of_pos_right hd]
    have : (0 : ℚ) ≤ ((null_vars.countP fun x => true_var ≤ x) : ℚ) := by positivity
    linarith
  · rw [perm_pvalue, div_le_one hd]
    have : ((null_vars.countP fun x => true_var ≤ x) : ℚ) ≤ (null_vars.length : ℚ) := by
      exact_mod_cast hc
    linarith
  · rw [perm_pvalue]
    have hnum : (0 : ℚ) < ((null_vars.countP fun x => true_var ≤ x) : ℚ) + 1 := by
      positivity
    exact ne_of_gt (div_pos hnum hd)

theorem perm_pvalue_bounds_witness :
    perm_pvalue [(1/2 : ℚ)] (1/4) =
        ((([(1/2 : ℚ)].countP fun x => (1/4 : ℚ) ≤ x) : ℚ) + 1) /
          ((([(1/2 : ℚ)] : List ℚ).length : ℚ) + 1) ∧
      1 / ((([(1/2 : ℚ)] : List ℚ).length : ℚ) + 1) ≤ perm_pvalue [(1/2 : ℚ)] (1/4) ∧
      perm_pvalue [(1/2 : ℚ)] (1/4) ≤ 1 ∧
      perm_pvalue [(1/2 : ℚ)] (1/4) ≠ 0 :=
  perm_pvalue_bounds [(1/2 : ℚ)] (1/4) (by simp)

/-- C8: on admissible inputs, `extract_average` returns a vector of
exactly 41 entries and `load_gene_expression` returns a matrix of exactly
41 rows, so the downstream PLS fit sees the same fixed sample count 41 on
both sides. -/
theorem sample_count_41 (scan atlas : List ℚ) (table : List (List ℚ))
    (hshape : scan.length = atlas.length) (htable : 41 ≤ table.length) :
    ∃ v, extract_average scan atlas = .ok v ∧ v.length = 41 ∧
      (load_gene_expression table).length = 41 := by
  refine ⟨extract_average_core scan atlas, ?_, ?_, ?_⟩
  · unfold extract_average check_correct_shape
    rw [if_pos hshape]
  · unfold extract_average_core
    rw [List.length_map, List.length_range']
    rfl
  · unfold load_gene_expression zscore
    rw [List.length_map, List.length_map, List.length_take]
    omega

theorem sample_count_41_witness :
    ∃ v, extract_average [(0 : ℚ)] [(7 : ℚ)] = .ok v ∧ v.length = 41 ∧
      (load_gene_expression ((List.range 41).map fun _ => ([] : List ℚ))).length = 41 :=
  sample_count_41 [(0 : ℚ)] [(7 : ℚ)] ((List.range 41).map fun _ => ([] : List ℚ))
    (by simp) (by simp)

/-! ### Claim C9: the gene-expression matrix is z-scored column-wise -/

theorem sum_map_sub_const (xs : List ℚ) (c : ℚ) :
    (xs.map fun x => x - c).sum = xs.sum - xs.length * c := by
  induction xs with
  | nil => simp
  | cons x xs ih =>
    simp only [List.map_cons, List.sum_cons, ih, List.length_cons]
    push_cast
    ring

theorem sum_map_div_const (xs : List ℚ) (f : ℚ → ℚ) (c : ℚ) :
    (xs.map fun x => f x / c).sum = (xs.map f).sum / c := by
  induction xs with
  | nil => simp
  | cons x xs ih => simp only [List.map_cons, List.sum_cons, ih, add_div]

theorem sum_center (xs : List ℚ) (hn : xs.length ≠ 0) :
    (xs.map fun x => x - npMean xs).sum = 0 := by
  rw [sum_map_sub_const, npMean]
  have hq : (xs.length : ℚ) ≠ 0 := Nat.cast_ne_zero.mpr hn
  field_simp

theorem zscoreCol_mean (xs : List ℚ) (sd : ℚ) (hn : xs.length ≠ 0) :
    npMean (xs.map fun x => (x - npMean xs) / sd) = 0 := by
  rw [npMean, sum_map_div_const xs (fun x => x - npMean xs) sd, sum_center xs hn]
  simp

theorem zscoreCol_var (xs : List ℚ) (sd : ℚ) (hn : xs.length ≠ 0) (hs0 : sd ≠ 0)
    (hs : sd ^ 2 = colVar 1 xs) :
    colVar 1 (xs.map fun x => (x - npMean xs) / sd) = 1 := by
  have hmean := zscoreCol_mean xs sd hn
  rw [colVar, hmean, List.length_map]
  have hmaps : ((xs.map fun x => (x - npMean xs) / sd).map fun y => (y - 0) ^ 2)
      = xs.map fun x => ((x - npMean xs) ^ 2) / sd ^ 2 := by
    rw [List.map_map]
    refine List.map_congr_left fun x _ => ?_
    simp [Function.comp, div_pow]
  rw [hmaps, sum_map_div_const xs (fun x => (x - npMean xs) ^ 2) (sd ^ 2)]
  rw [div_div, mul_comm, ← div_div, ← colVar]
  rw [← hs, div_self (pow_ne_zero 2 hs0)]

theorem zscoreRow_getElem? (mus sigmas row : List ℚ) (j : ℕ)
    (hr : j < row.length) (hm : j < mus.length) (hs : j < sigmas.length) :
    (zscoreRow mus sigmas row)[j]? =
      some ((row.getD j 0 - mus.getD j 0) / sigmas.getD j 0) := by
  have hz : j < (row.zip (mus.zip sigmas)).length := by
    rw [List.length_zip, List.length_zip]
    omega
  have hlen : j < (zscoreRow mus sigmas row).length := by
    simp only [zscoreRow, List.length_map]
    exact hz
  rw [List.getElem?_eq_getElem hlen]
  simp only [zscoreRow, List.getElem_map, List.getElem_zip]
  rw [List.getD_eq_getElem _ 0 hr, List.getD_eq_getElem _ 0 hm,
    List.getD_eq_getElem _ 0 hs]

theorem getCol_map_zscoreRow (m : List (List ℚ)) (mus sigmas : List ℚ)
    (j G : ℕ) (hG : ∀ row ∈ m, row.length = G) (hj : j < G)
    (hm : j < mus.length) (hs : j < sigmas.length) :
    getCol (m.map (zscoreRow mus sigmas)) j =
      (getCol m j).map fun x => (x - mus.getD j 0) / sigmas.getD j 0 := by
  induction m with
  | nil => rfl
  | cons r rs ih =>
    have hr : j < r.length := by
      rw [hG r (by simp)]
      exact hj
    have hrs : ∀ row ∈ rs, row.length = G := fun row h => hG row (by simp [h])
    simp only [List.map_cons, getCol, List.filterMap_cons] at ih ⊢
    rw [zscoreRow_getElem? mus sigmas r j hr hm hs, List.getElem?_eq_getElem hr]
    simp only [List.map_cons]
    rw [List.getD_eq_getElem _ 0 hr]
    exact congrArg _ (ih hrs)

theorem getCol_length (m : List (List ℚ)) (j G : ℕ)
    (hG : ∀ row ∈ m, row.length = G) (hj : j < G) :
    (getCol m j).length = m.length := by
  induction m with
  | nil => rfl
  | cons r rs ih =>
    have hr : j < r.length := by
      rw [hG r (by simp)]
      exact hj
    simp only [getCol, List.filterMap_cons, List.getElem?_eq_getElem hr] at ih ⊢
    rw [List.length_cons]
    have hl := ih fun row h => hG row (by simp [h])
    simp only [getCol] at hl
    rw [hl]
    simp

theorem getD_map_map_range (n j : ℕ) (hj : j < n) (f : ℕ → List ℚ)
    (g : List ℚ → ℚ) :
    (((List.range n).map f).map g).getD j 0 = g (f j) := by
  rw [List.getD_eq_getElem _ 0 (by simpa using hj)]
  simp

theorem getCol_zscore (X : List (List ℚ)) (j G : ℕ)
    (hG : ∀ row ∈ X, row.length = G) (hj : j < G) (hne : X ≠ []) :
    getCol (zscore 1 X) j =
      (getCol X j).map fun x =>
        (x - npMean (getCol X j)) / sampleStd 1 (getCol X j) := by
  have hhead : (X.headD []).length = G := by
    cases X with
    | nil => exact absurd rfl hne
    | cons a t => exact hG a (by simp)
  simp only [zscore, hhead]
  have hm : j < (((List.range G).map (getCol X)).map npMean).length := by
    simp [hj]
  have hs : j < (((List.range G).map (getCol X)).map (sampleStd 1)).length := by
    simp [hj]
  rw [getCol_map_zscoreRow X _ _ j G hG hj hm hs]
  rw [getD_map_map_range G j hj (getCol X) npMean,
    getD_map_map_range G j hj (getCol X) (sampleStd 1)]

/-- C9: each column of the matrix returned by `load_gene_expression` is
the `ddof = 1` z-score of the corresponding gene column of the sliced
expression table over the 41 sample rows: it equals that column centred
by its mean and divided by its sample standard deviation, and it has 41
entries, mean `0` and unit sample variance (hence unit sample standard
deviation).  The two standard-deviation hypotheses say that the column's
sample standard deviation is exactly representable in `ℚ` and nonzero
(the embedding's stand-in for the floating-point square root). -/
theorem load_gene_expression_zscored (table : List (List ℚ)) (j G : ℕ)
    (hlen : 41 ≤ table.length)
    (hrect : ∀ row ∈ table, row.length = G)
    (hj : j + 2 < G)
    (hsd : sampleStd 1 (getCol ((table.take 41).map fun row => row.drop 2) j) ^ 2
        = colVar 1 (getCol ((table.take 41).map fun row => row.drop 2) j))
    (hsd0 : sampleStd 1 (getCol ((table.take 41).map fun row => row.drop 2) j) ≠ 0) :
    getCol (load_gene_expression table) j =
        ((getCol ((table.take 41).map fun row => row.drop 2) j).map fun x =>
          (x - npMean (getCol ((table.take 41).map fun row => row.drop 2) j)) /
            sampleStd 1 (getCol ((table.take 41).map fun row => row.drop 2) j)) ∧
      (getCol (load_gene_expression table) j).length = 41 ∧
      npMean (getCol (load_gene_expression table) j) = 0 ∧
      colVar 1 (getCol (load_gene_expression table) j) = 1 := by
  have hXlen : ((table.take 41).map fun row => row.drop 2).length = 41 := by
    rw [List.length_map, List.length_take]
    omega
  have hXrect : ∀ row ∈ (table.take 41).map fun row => row.drop 2,
      row.length = G - 2 := by
    intro row hrow
    rcases List.mem_map.mp hrow with ⟨r, hr, rfl⟩
    rw [List.length_drop, hrect r (List.take_subset _ _ hr)]
  have hXne : ((table.take 41).map fun row => row.drop 2) ≠ [] := by
    intro h
    rw [h] at hXlen
    simp at hXlen
  have hjX : j < G - 2 := by omega
  have hcol := getCol_zscore _ j (G - 2) hXrect hjX hXne
  have hclen : (getCol ((table.take 41).map fun row => row.drop 2) j).length = 41 := by
    rw [getCol_length _ j (G - 2) hXrect hjX, hXlen]
  have hn0 : (getCol ((table.take 41).map fun row => row.drop 2) j).length ≠ 0 := by
    rw [hclen]
    omega
  refine ⟨?_, ?_, ?_, ?_⟩
  · unfold load_gene_expression
    exact hcol
  · unfold load_gene_expression
    rw [hcol, List.length_map, hclen]
  · unfold load_gene_expression
    rw [hcol]
    exact zscoreCol_mean _ _ hn0
  · unfold load_gene_expression
    rw [hcol]
    exact zscoreCol_var _ _ hn0 hsd0 hsd

/-- A concrete 41-row expression table (two metadata columns and one gene
column holding twenty `-1`s, twenty `1`s and one `0`, so that the gene
column is already centred with unit sample variance). -/
def tableW : List (List ℚ) :=
  List.replicate 20 [0, 0, -1] ++ List.replicate 20 [0, 0, 1] ++ [[0, 0, 0]]

/-- The gene column of `tableW` after the `iloc[0:41, 2:]` slice. -/
def colW : List ℚ := List.replicate 20 (-1) ++ List.replicate 20 1 ++ [0]

theorem load_gene_expression_zscored_witness :
    getCol (load_gene_expression tableW) 0 =
        ((getCol ((tableW.take 41).map fun row => row.drop 2) 0).map fun x =>
          (x - npMean (getCol ((tableW.take 41).map fun row => row.drop 2) 0)) /
            sampleStd 1 (getCol ((tableW.take 41).map fun row => row.drop 2) 0)) ∧
      (getCol (load_gene_expression tableW) 0).length = 41 ∧
      npMean (getCol (load_gene_expression tableW) 0) = 0 ∧
      colVar 1 (getCol (load_gene_expression tableW) 0) = 1 := by
  have hc : getCol ((tableW.take 41).map fun row => row.drop 2) 0 = colW := by
    decide
  have hmu : npMean colW = 0 := by
    norm_num [colW, npMean, List.sum_append, List.sum_replicate, nsmul_eq_mul]
  have hvar : colVar 1 colW = 1 := by
    rw [colVar, hmu]
    norm_num [colW, List.map_append, List.map_replicate, List.sum_append,
      List.sum_replicate, nsmul_eq_mul, List.length_append, List.length_replicate]
  have hstd : sampleStd 1 colW = 1 := by
    rw [sampleStd, hvar, ratSqrt]
    norm_num
  exact load_gene_expression_zscored tableW 0 3 (by decide) (by decide) (by decide)
    (by rw [hc, hstd, hvar]; norm_num)
    (by rw [hc, hstd]; norm_num)

end ImagingTranscriptomics
